import Mathlib

/-!
Verification of the NovenUtility_Backend document-conversion core against its
natural-language specification.

The development shallowly embeds the relevant JavaScript source:
  * `src/utils/docxProcessor.js` — variable extraction (`extractTextAndVariables`),
    text-mode substitution (`replaceVariables`), template normalization
    (`processTemplate`), and the per-line document assemblers
    (`createDocxFromText`, `createDocxFromTextAdvanced`);
  * `src/utils/pdfToWordConverter.js` — the conversion cascade
    (`convertPdfToWord`) and the strategies `convertWithLibreOffice`,
    `convertWithPdf2Docx`;
  * `src/unnamed/part_000` (AdvancedPdfToWordConverter) — the structural
    classifier used by `processTextWithAdvancedFormatting`.

Strings are modelled as Lean `String`/`List Char`; JavaScript regular-expression
behaviour is embedded as explicit character scanners whose leftmost-match,
greedy and backtracking behaviour follows the concrete regexes of the source
(`/\{\{\s*([^}]+)\s*\}\}/g`, `new RegExp("\\{\\{\\s*" + name + "\\s*\\}\\}", "g")`,
`/<[^>]+>/g`, `/\s{2,}|\t/`).  `\s` is modelled over the ASCII whitespace
characters (space, tab, line feed, carriage return, vertical tab, form feed);
all theorems and counterexamples below stay in the ASCII fragment, where this
coincides with JavaScript.  External effects (mammoth, the zip reader, the
child processes, the filesystem) are passed in as explicit outcome values.
-/

namespace Noven

/-- ASCII fragment of the JavaScript `\s` character class (and of the
whitespace removed by `String.prototype.trim`). -/
def jsWs (c : Char) : Bool :=
  c == ' ' || c == '\t' || c == '\n' || c == '\r' || c == Char.ofNat 11 || c == Char.ofNat 12

/-- JavaScript `String.prototype.trim`, on character lists. -/
def trimChars (l : List Char) : List Char :=
  ((l.dropWhile jsWs).reverse.dropWhile jsWs).reverse

/-- JavaScript `String.prototype.trim`. -/
def trimStr (s : String) : String :=
  String.mk (trimChars s.data)

/-- State of the placeholder scanner embedding the global regex
`/\{\{\s*([^}]+)\s*\}\}/g` used by `extractTextAndVariables` and
`getFileStats` in `src/utils/docxProcessor.js`. -/
inductive ScanSt : Type
  | out : ScanSt
  | brace1 : ScanSt
  | inner (acc : List Char) : ScanSt
  | close1 (acc : List Char) : ScanSt

/-- One-pass scanner equivalent to repeatedly calling `exec` with
`/\{\{\s*([^}]+)\s*\}\}/g`: it returns the raw contents (the text strictly
between a `\x7b\x7b` and the first following `\x7d\x7d`, nonempty and free of `\x7d`)
of every match, in order.  On a failed attempt (a lone `\x7d` or a missing
closing pair) it resumes exactly where the regex engine's position-by-position
retry would find the next possible match. -/
def scanVarsAux : List Char → ScanSt → List (List Char)
  | [], _ => []
  | c :: rest, ScanSt.out =>
      if c = '{' then scanVarsAux rest ScanSt.brace1 else scanVarsAux rest ScanSt.out
  | c :: rest, ScanSt.brace1 =>
      if c = '{' then scanVarsAux rest (ScanSt.inner [])
      else scanVarsAux rest ScanSt.out
  | c :: rest, ScanSt.inner acc =>
      if c = '}' then scanVarsAux rest (ScanSt.close1 acc)
      else scanVarsAux rest (ScanSt.inner (c :: acc))
  | c :: rest, ScanSt.close1 acc =>
      if c = '}' then
        if acc.isEmpty then scanVarsAux rest ScanSt.out
        else acc.reverse :: scanVarsAux rest ScanSt.out
      else if c = '{' then scanVarsAux rest ScanSt.brace1
      else scanVarsAux rest ScanSt.out

/-- Raw placeholder contents of a text, in match order. -/
def scanVarContents (s : String) : List (List Char) :=
  scanVarsAux s.data ScanSt.out

/-- Insertion-order deduplication, as performed by the JavaScript `Set`
the extractor adds trimmed names to. -/
def dedupAux : List String → List String → List String
  | [], _ => []
  | x :: xs, seen => if x ∈ seen then dedupAux xs seen else x :: dedupAux xs (x :: seen)

/-- `Array.from(new Set(...))` over a list of names. -/
def dedupKeepFirst (l : List String) : List String :=
  dedupAux l []

/-- The set (insertion-ordered, duplicate-free) of trimmed variable names the
body-text scan of `extractTextAndVariables` collects from a text. -/
def extractVarNames (s : String) : List String :=
  dedupKeepFirst ((scanVarContents s).map (fun l => String.mk (trimChars l)))

/-- JavaScript values a ValueMap can carry, restricted to the shapes the
claims mention (strings, integers, NaN, booleans, null, undefined). -/
inductive JsValue : Type
  | str (s : String)
  | num (n : Int)
  | nan
  | boolean (b : Bool)
  | null
  | undef
deriving DecidableEq

/-- JavaScript truthiness test (falsy values). -/
def isFalsy : JsValue → Bool
  | JsValue.str s => s == ""
  | JsValue.num n => n == 0
  | JsValue.nan => true
  | JsValue.boolean b => !b
  | JsValue.null => true
  | JsValue.undef => true

/-- JavaScript `String(v)` for the modelled values. -/
def jsToString : JsValue → String
  | JsValue.str s => s
  | JsValue.num n => toString n
  | JsValue.nan => "NaN"
  | JsValue.boolean b => if b then "true" else "false"
  | JsValue.null => "null"
  | JsValue.undef => "undefined"

/-- The replacement string produced by `variables[variableName] || ''`
in `replaceVariables` (a falsy value yields the empty string, any other
value is stringified by `String.replace`). -/
def jsOrEmptyStr (v : JsValue) : String :=
  if isFalsy v then "" else jsToString v

/-- After a candidate name match, the regex `\s*\}\}` must follow: skip
whitespace greedily and require the literal `\x7d\x7d` (whitespace characters are
never `\x7d`, so no backtracking is possible on this side). -/
def matchAfterName (l : List Char) : Option (List Char) :=
  match l.dropWhile jsWs with
  | '}' :: '}' :: rest => some rest
  | _ => none

/-- Try the literal name at the current position, then `\s*\}\}`. -/
def tryNameAt (name l : List Char) : Option (List Char) :=
  if name.isPrefixOf l then matchAfterName (l.drop name.length) else none

/-- Greedy `\s*` before the name, with regex backtracking: consume as much
whitespace as possible first, and on failure give characters back one at a
time. -/
def matchNameWs (name : List Char) : List Char → Option (List Char)
  | [] => tryNameAt name []
  | c :: rest =>
      if jsWs c then
        match matchNameWs name rest with
        | some r => some r
        | none => tryNameAt name (c :: rest)
      else tryNameAt name (c :: rest)

/-- Match the pattern `\{\{\s*name\s*\}\}` (the name spliced in verbatim, as
`replaceVariables` does) at the head of `l`; returns the remainder after the
match. -/
def matchPh (name : List Char) : List Char → Option (List Char)
  | c1 :: c2 :: rest => if c1 = '{' ∧ c2 = '{' then matchNameWs name rest else none
  | _ => none

/-- Global, leftmost, non-overlapping replacement of the placeholder pattern
for one name by `value`, as `String.replace` with the `g` flag performs it:
at each position try the pattern; on success emit the replacement and resume
after the match, otherwise emit one character and retry at the next position.
`fuel` bounds the recursion; any `fuel ≥ l.length` computes the true result. -/
def goRepl (name value : List Char) : Nat → List Char → List Char
  | 0, l => l
  | fuel + 1, l =>
      match matchPh name l with
      | some rest => value ++ goRepl name value fuel rest
      | none =>
          match l with
          | [] => []
          | c :: r => c :: goRepl name value fuel r

/-- `DocxProcessor.replaceVariables` (src/utils/docxProcessor.js:60-69):
iterate over the keys of the ValueMap in order and globally replace
`\{\{\s*key\s*\}\}` by `variables[key] || ''`.  Names not among the keys are
never considered. -/
def replaceVariables (text : String) (vm : List (String × JsValue)) : String :=
  vm.foldl
    (fun acc kv => String.mk (goRepl kv.1.data (jsOrEmptyStr kv.2).data acc.data.length acc.data))
    text

/-- The `safeVariables` normalization of `DocxProcessor.processTemplate`
(src/utils/docxProcessor.js:363-366): only `null`/`undefined` values
(`value == null`) are replaced by the empty string; every other value is
passed through to the rendering engine unchanged. -/
def safeTemplateVariables (vm : List (String × JsValue)) : List (String × JsValue) :=
  vm.map (fun kv =>
    (kv.1, if kv.2 = JsValue.null ∨ kv.2 = JsValue.undef then JsValue.str "" else kv.2))

/-- Scanner for the tag-stripping replace `xml.replace(/<[^>]+>/g, '')` used on
header/footer XML: the `Option` state holds the reversed accumulated tag body
once a `<` has been consumed. -/
def stripTagsAux : List Char → Option (List Char) → List Char
  | [], none => []
  | [], some acc => '<' :: acc.reverse
  | c :: rest, none =>
      if c = '<' then stripTagsAux rest (some [])
      else c :: stripTagsAux rest none
  | c :: rest, some acc =>
      if c = '>' then
        if acc.isEmpty then '<' :: '>' :: stripTagsAux rest none
        else stripTagsAux rest none
      else stripTagsAux rest (some (c :: acc))

/-- Result of `DocxProcessor.extractTextAndVariables`. -/
structure ExtractResult : Type where
  text : String
  vars : List String
deriving DecidableEq

/-- The trimmed variable occurrences of one text region, in match order
(the per-region regex loop that adds `match[1].trim()` to the Set). -/
def varOccurrences (s : String) : List String :=
  (scanVarContents s).map (fun l => String.mk (trimChars l))

/-- Variables contributed by one header/footer file: its XML is tag-stripped
and then scanned (src/utils/docxProcessor.js:33-38). -/
def scanRegionVars (xml : String) : List String :=
  varOccurrences (String.mk (stripTagsAux xml.data none))

/-- The `forEach` over the header/footer entries
(src/utils/docxProcessor.js:32-39): each entry is the outcome of that file's
`f.asText()` read.  A file whose read succeeds contributes its variables to
the shared set; the first file whose read throws aborts the loop (the
exception propagates to the surrounding `catch`), so variables added before
the throw persist and later files contribute nothing. -/
def scanHeaderFooters : List (Except String String) → List String
  | [] => []
  | Except.error _ :: _ => []
  | Except.ok xml :: rest => scanRegionVars xml ++ scanHeaderFooters rest

/-- `DocxProcessor.extractTextAndVariables` (src/utils/docxProcessor.js:13-52),
with the external collaborators passed in: `body` is the outcome of
`mammoth.extractRawText`; `headerFooters` is `Except.error` when opening or
listing the zip (`fs.readFile`/`PizZip`/`zip.file`) throws before any region
is scanned, and otherwise the list of matched header/footer entries, each
entry the outcome of its `f.asText()` read.  The whole header/footer block
sits in a `try`/`catch` whose handler ignores the error, so any failure
there is non-fatal: extraction returns the variables already added to the
shared Set — the body variables plus those of the regions scanned before the
failure point.  A body failure is rethrown with a prefix. -/
def extractTextAndVariables (body : Except String String)
    (headerFooters : Except String (List (Except String String))) :
    Except String ExtractResult :=
  match body with
  | Except.error e => Except.error ("Failed to extract text from DOCX: " ++ e)
  | Except.ok text =>
      let allVars :=
        match headerFooters with
        | Except.error _ => varOccurrences text
        | Except.ok files => varOccurrences text ++ scanHeaderFooters files
      Except.ok ⟨text, dedupKeepFirst allVars⟩

/-! ### Conversion cascade (src/utils/pdfToWordConverter.js) -/

/-- `PdfToWordConverter.convertPdfToWord` (src/utils/pdfToWordConverter.js:15-45)
with the four strategy invocations passed in as outcomes, instrumented with
the list of strategies actually invoked (in order).  Methods 1-3 are each
wrapped in a `try`/`catch` whose handler only logs the failure; method 4 is
called outside any `try`, so its outcome — success or error — is the
cascade's outcome once the first three have failed. -/
def convertPdfToWordTrace (r1 r2 r3 r4 : Except String String) :
    Except String String × List Nat :=
  match r1 with
  | Except.ok p => (Except.ok p, [1])
  | Except.error _ =>
      match r2 with
      | Except.ok p => (Except.ok p, [1, 2])
      | Except.error _ =>
          match r3 with
          | Except.ok p => (Except.ok p, [1, 2, 3])
          | Except.error _ => (r4, [1, 2, 3, 4])

/-- The cascade's returned/thrown outcome. -/
def convertPdfToWord (r1 r2 r3 r4 : Except String String) : Except String String :=
  (convertPdfToWordTrace r1 r2 r3 r4).1

/-- Outcome of one LibreOffice sub-variant attempt inside
`convertWithLibreOffice`: whether `execAsync` threw (and with what message),
and the artifact found at the expected output path afterwards (`none` =
`fs.existsSync` is false, `some n` = a file of `n` bytes exists; the code
only calls `existsSync` and never inspects the size). -/
structure LibreAttempt : Type where
  execError : Option String
  artifact : Option Nat
deriving DecidableEq

/-- One iteration of the loop in `convertWithLibreOffice`
(src/utils/pdfToWordConverter.js:63-91): on an `exec` error, rethrow only on
the last iteration, otherwise continue; on success, return the output path as
soon as the expected file exists (it is moved into place regardless of its
size), otherwise continue. -/
def libreStep (a : LibreAttempt) (isLast : Bool) (outPath : String)
    (next : Except String String) : Except String String :=
  match a.execError with
  | some e => if isLast then Except.error e else next
  | none => if a.artifact.isSome then Except.ok outPath else next

/-- `PdfToWordConverter.convertWithLibreOffice`
(src/utils/pdfToWordConverter.js:50-94): three sub-variants tried in order,
falling through to the aggregate error message when every attempt ends
without an existing artifact and without a final rethrow. -/
def convertWithLibreOffice (a1 a2 a3 : LibreAttempt) (outPath : String) :
    Except String String :=
  libreStep a1 false outPath
    (libreStep a2 false outPath
      (libreStep a3 true outPath
        (Except.error "All LibreOffice conversion methods failed")))

/-- `PdfToWordConverter.convertWithPdf2Docx`
(src/utils/pdfToWordConverter.js:99-142): after `converter.convert` resolves
the output path is returned unconditionally — the artifact at the output path
(second argument, `none` = missing, `some n` = `n` bytes) is never
inspected. -/
def convertWithPdf2Docx (convErr : Option String) (_artifact : Option Nat)
    (outPath : String) : Except String String :=
  match convErr with
  | some e => Except.error e
  | none => Except.ok outPath

/-! ### Structural classifier (src/unnamed/part_000, AdvancedPdfToWordConverter) -/

/-- JavaScript `String.prototype.toUpperCase`, ASCII fragment
(`Char.toUpper` maps `a`-`z` to `A`-`Z` and fixes everything else). -/
def jsToUpperStr (s : String) : String :=
  String.mk (s.data.map Char.toUpper)

/-- First character satisfies the given test. -/
def headIs (p : Char → Bool) : List Char → Bool
  | [] => false
  | c :: _ => p c

/-- The line contains two adjacent characters equal to `a` then `b`
(JavaScript `includes` of a two-character needle, and the heart of the
`^..` two-character regex tests). -/
def contains2 (a b : Char) : List Char → Bool
  | [] => false
  | [_] => false
  | c1 :: c2 :: r => (c1 == a && c2 == b) || contains2 a b (c2 :: r)

/-- The line contains a run of two or more `\s` characters
(`(line.match(/\s{2,}/g) || []).length > 0`). -/
def hasWsRun2 : List Char → Bool
  | [] => false
  | [_] => false
  | c1 :: c2 :: r => (jsWs c1 && jsWs c2) || hasWsRun2 (c2 :: r)

/-- ASCII upper-case letter (the regex class `[A-Z]`). -/
def isAsciiUpper (c : Char) : Bool :=
  'A' ≤ c && c ≤ 'Z'

/-- ASCII lower-case letter (the regex class `[a-z]`). -/
def isAsciiLower (c : Char) : Bool :=
  'a' ≤ c && c ≤ 'z'

/-- `AdvancedPdfToWordConverter.isHeader` (src/unnamed/part_000:270-272):
`line === line.toUpperCase() && line.length > 3 && line.length < 100`. -/
def isHeader (line : String) : Bool :=
  line == jsToUpperStr line && decide (3 < line.length) && decide (line.length < 100)

/-- `AdvancedPdfToWordConverter.isSubHeader` (src/unnamed/part_000:277-280):
`line.length > 5 && line.length < 80 && (line.endsWith(':') || /^[A-Z][a-z]/.test(line))`. -/
def isSubHeader (line : String) : Bool :=
  decide (5 < line.length) && decide (line.length < 80) &&
    (headIs (fun c => c == ':') line.data.reverse ||
      (match line.data with
       | c1 :: c2 :: _ => isAsciiUpper c1 && isAsciiLower c2
       | _ => false))

/-- `AdvancedPdfToWordConverter.isTableRow` (src/unnamed/part_000:285-289):
at least one `\s{2,}` match or at least one tab. -/
def isTableRow (line : String) : Bool :=
  hasWsRun2 line.data || line.data.contains '\t'

/-- Tail of the regex `^\d+\.\s` after the first digit: more digits, then a
period, then one whitespace character. -/
def numDot : List Char → Bool
  | [] => false
  | c :: rest => if c.isDigit then numDot rest else (c == '.' && headIs jsWs rest)

/-- `AdvancedPdfToWordConverter.isNumberedList` (src/unnamed/part_000:301-303):
the regex test `/^\d+\.\s/.test(line)`. -/
def isNumberedList (line : String) : Bool :=
  match line.data with
  | c :: rest => c.isDigit && numDot rest
  | [] => false

/-- `AdvancedPdfToWordConverter.isBulletPoint` (src/unnamed/part_000:308-310):
the regex test `/^[•\-\*]\s/.test(line)`. -/
def isBulletPoint (line : String) : Bool :=
  match line.data with
  | c1 :: c2 :: _ => (c1 == '•' || c1 == '-' || c1 == '*') && jsWs c2
  | _ => false

/-- `AdvancedPdfToWordConverter.isEmphasizedText` (src/unnamed/part_000:315-319). -/
def isEmphasizedText (line : String) : Bool :=
  decide (10 < line.length) && decide (line.length < 200) &&
    (contains2 '*' '*' line.data || contains2 '_' '_' line.data ||
      line == jsToUpperStr line || headIs isAsciiUpper line.data)

/-- Block kind assigned to one line by the classifier. -/
inductive LineKind : Type
  | blank
  | header
  | subHeader
  | tableRow
  | numbered
  | bullet
  | emphasized
  | paragraph
deriving DecidableEq

/-- The per-line dispatch of
`AdvancedPdfToWordConverter.processTextWithAdvancedFormatting`
(src/unnamed/part_000:211-253), applied to the already-trimmed line: the
blank check `if (!line)` first, then `isHeader`, `isSubHeader`, `isTableRow`,
`isNumberedList`, `isBulletPoint`, `isEmphasizedText`, else paragraph —
first match wins. -/
def classifyLine (line : String) : LineKind :=
  if line = "" then LineKind.blank
  else if isHeader line then LineKind.header
  else if isSubHeader line then LineKind.subHeader
  else if isTableRow line then LineKind.tableRow
  else if isNumberedList line then LineKind.numbered
  else if isBulletPoint line then LineKind.bullet
  else if isEmphasizedText line then LineKind.emphasized
  else LineKind.paragraph

/-! ### Document assembler (src/utils/docxProcessor.js, createDocxFromText
and createDocxFromTextAdvanced) -/

/-- Cell splitter state machine for `paragraph.split(/\s{2,}|\t/)`: a
separator is a maximal run of two-or-more `\s` characters, or a single tab.
The Boolean flag records whether the scanner is currently inside a multi-
character whitespace separator. -/
def splitCellsAux : List Char → List Char → Bool → List (List Char)
  | [], acc, _ => [acc.reverse]
  | c :: rest, acc, true =>
      if jsWs c then splitCellsAux rest acc true
      else splitCellsAux rest (c :: acc) false
  | c :: rest, acc, false =>
      if jsWs c then
        match rest with
        | [] => if c = '\t' then [acc.reverse, []] else [(c :: acc).reverse]
        | c2 :: _ =>
            if jsWs c2 then acc.reverse :: splitCellsAux rest [] true
            else if c = '\t' then acc.reverse :: splitCellsAux rest [] false
            else splitCellsAux rest (c :: acc) false
      else splitCellsAux rest (c :: acc) false

/-- `paragraph.split(/\s{2,}|\t/).filter(cell => cell.trim() !== '')`
(src/utils/docxProcessor.js:114 and :262). -/
def splitCellsFiltered (p : String) : List (List Char) :=
  (splitCellsAux p.data [] false).filter (fun cell => !(trimChars cell).isEmpty)

/-- Number of leading `#` characters (`paragraph.match(/^#+/)[0].length`). -/
def countHashes : List Char → Nat
  | '#' :: rest => countHashes rest + 1
  | _ => 0

/-- `paragraph.replace(/^#+\s*/, '')`: drop the leading run of `#` and the
whitespace run after it. -/
def headingText (p : String) : String :=
  String.mk ((p.data.dropWhile (fun c => c == '#')).dropWhile jsWs)

/-- The `HEADING_1`..`HEADING_4` selection: levels above 3 collapse to 4. -/
def headingLevelOf (n : Nat) : Nat :=
  if n = 1 then 1 else if n = 2 then 2 else if n = 3 then 3 else 4

/-- `paragraph.replace(/\*\*/g, '')`: remove every (leftmost, non-overlapping)
occurrence of two adjacent asterisks. -/
def stripDoubleStars : List Char → List Char
  | '*' :: '*' :: rest => stripDoubleStars rest
  | c :: rest => c :: stripDoubleStars rest
  | [] => []

/-- The list starts with two asterisks (`startsWith('**')`; applied to the
reversed list it is `endsWith('**')`). -/
def starts2Stars : List Char → Bool
  | '*' :: '*' :: _ => true
  | _ => false

/-- One paragraph-like construct produced by the `children` mappers of
`createDocxFromText` / `createDocxFromTextAdvanced`. -/
inductive DocxChild : Type
  | heading (level : Nat) (text : String)
  | emphasized (text : String)
  | monospace (text : String)
  | numberedItem (text : String)
  | bulletItem (text : String)
  | paragraph (text : String)
deriving DecidableEq

/-- The per-line mapper inside `createDocxFromText`
(src/utils/docxProcessor.js:93-183).  The table-row branch
(`includes('  ') || includes('\t')`) returns a monospace paragraph only when
the cell split leaves more than one nonempty cell; otherwise the branch ends
without returning anything, so the mapper yields `undefined` — modelled as
`none`. -/
def createDocxFromTextLine (p : String) : Option DocxChild :=
  if headIs (fun c => c == '#') p.data then
    some (DocxChild.heading (headingLevelOf (countHashes p.data)) (headingText p))
  else if contains2 ' ' ' ' p.data || p.data.contains '\t' then
    (if 1 < (splitCellsFiltered p).length then some (DocxChild.monospace p) else none)
  else if isNumberedList p then some (DocxChild.numberedItem p)
  else if isBulletPoint p then some (DocxChild.bulletItem p)
  else some (DocxChild.paragraph p)

/-- The per-line mapper inside `createDocxFromTextAdvanced`
(src/utils/docxProcessor.js:222-331): same as the basic mapper plus an
emphasized branch for lines wrapped in `**`, placed between the heading and
table-row branches. -/
def createDocxFromTextAdvancedLine (p : String) : Option DocxChild :=
  if headIs (fun c => c == '#') p.data then
    some (DocxChild.heading (headingLevelOf (countHashes p.data)) (headingText p))
  else if starts2Stars p.data && starts2Stars p.data.reverse then
    some (DocxChild.emphasized (String.mk (stripDoubleStars p.data)))
  else if contains2 ' ' ' ' p.data || p.data.contains '\t' then
    (if 1 < (splitCellsFiltered p).length then some (DocxChild.monospace p) else none)
  else if isNumberedList p then some (DocxChild.numberedItem p)
  else if isBulletPoint p then some (DocxChild.bulletItem p)
  else some (DocxChild.paragraph p)

/-! ### Valid placeholder texts

A *valid placeholder text* is an interleaving of literal segments and
well-formed placeholders `\x7b\x7b ws name ws \x7d\x7d`.  Literals contain no brace
characters; names are nonempty, trimmed, and avoid the characters that
`new RegExp` would interpret (so the substitution regex of
`replaceVariables` matches them literally, exactly as the scanners below
do). -/

/-- Characters with a meaning inside a JavaScript regular expression: a name
containing one of these is not matched literally by the `new RegExp` of
`replaceVariables` (and `(`/`)`/`[` even make it throw). -/
def isRegexSpecial (c : Char) : Bool :=
  c == '{' || c == '}' || c == '.' || c == '*' || c == '+' || c == '?' ||
    c == '^' || c == '$' || c == '|' || c == '(' || c == ')' || c == '[' ||
    c == ']' || c == '\\'

/-- A literal segment: free of brace characters. -/
def litOk (s : String) : Bool :=
  s.data.all (fun c => !(c == '{') && !(c == '}'))

/-- A well-formed placeholder name: nonempty, starting and ending with
non-whitespace (i.e. already trimmed), free of regex-special characters. -/
def nameOk (n : String) : Bool :=
  headIs (fun c => !jsWs c) n.data && headIs (fun c => !jsWs c) n.data.reverse &&
    n.data.all (fun c => !isRegexSpecial c)

/-- A replacement value the substitution inserts verbatim: free of braces
(so it can form no new placeholder) and of `$` (which `String.replace`
would interpret in the replacement string). -/
def valOk (v : JsValue) : Bool :=
  match v with
  | JsValue.str s =>
      !(s == "") && s.data.all (fun c => !(c == '{') && !(c == '}') && !(c == '$'))
  | _ => false

/-- One segment of a valid placeholder text. -/
inductive Seg : Type
  | lit (s : String)
  | ph (pre : String) (name : String) (post : String)
deriving DecidableEq

/-- The characters of one segment (`ph a n b` renders as `\x7b\x7b a n b \x7d\x7d`). -/
def segChars : Seg → List Char
  | Seg.lit s => s.data
  | Seg.ph a n b => '{' :: '{' :: (a.data ++ n.data ++ b.data ++ ['}', '}'])

/-- Characters of a segment list. -/
def renderSegsL : List Seg → List Char
  | [] => []
  | s :: rest => segChars s ++ renderSegsL rest

/-- The rendered text of a segment list. -/
def renderSegs (l : List Seg) : String :=
  String.mk (renderSegsL l)

/-- Well-formedness of one segment. -/
def segOk : Seg → Bool
  | Seg.lit s => litOk s
  | Seg.ph a n b => a.data.all jsWs && b.data.all jsWs && nameOk n

/-- Well-formedness of a segment list. -/
def validSegs (l : List Seg) : Bool :=
  l.all segOk

/-- The placeholder names of a segment list, in order of appearance. -/
def phNamesList : List Seg → List String
  | [] => []
  | Seg.lit _ :: rest => phNamesList rest
  | Seg.ph _ n _ :: rest => n :: phNamesList rest

/-! ### Small helper lemmas -/

/-- A whitespace character is not a closing brace. -/
theorem jsWs_ne_rbrace {c : Char} (h : jsWs c = true) : ¬ c = '}' := by
  intro hc
  subst hc
  exact absurd h (by decide)

/-- A whitespace character is not an opening brace. -/
theorem jsWs_ne_lbrace {c : Char} (h : jsWs c = true) : ¬ c = '{' := by
  intro hc
  subst hc
  exact absurd h (by decide)

/-- Dropping a whitespace-only prefix. -/
theorem dropWhile_append_of_all {p : Char → Bool} (w l : List Char)
    (hw : ∀ c ∈ w, p c = true) :
    (w ++ l).dropWhile p = l.dropWhile p := by
  induction w with
  | nil => rfl
  | cons c w ih =>
      have hc : p c = true := hw c (List.mem_cons_self c w)
      simp only [List.cons_append, List.dropWhile_cons, hc, if_pos]
      exact ih (fun d hd => hw d (List.mem_cons_of_mem c hd))

/-- `dropWhile` leaves a list whose head fails the test alone. -/
theorem dropWhile_of_head_neg {p : Char → Bool} {l : List Char}
    (h : headIs (fun c => !p c) l = true) : l.dropWhile p = l := by
  cases l with
  | nil => rfl
  | cons c r =>
      have hc : p c = false := by
        have := h
        simp [headIs] at this
        exact this
      simp [List.dropWhile_cons, hc]

/-- The result of `dropWhile` is empty or starts with a failing element. -/
theorem headIs_not_of_dropWhile (p : Char → Bool) (l : List Char) :
    l.dropWhile p = [] ∨ headIs (fun c => !p c) (l.dropWhile p) = true := by
  induction l with
  | nil => exact Or.inl rfl
  | cons c r ih =>
      by_cases hc : p c = true
      · simpa [List.dropWhile_cons, hc] using ih
      · right
        have hc' : p c = false := by revert hc; cases p c <;> simp
        simp [List.dropWhile_cons, hc', headIs]

/-- Trimming a name sandwiched between whitespace runs recovers the name. -/
theorem trimChars_sandwich (a n b : List Char)
    (ha : ∀ c ∈ a, jsWs c = true) (hb : ∀ c ∈ b, jsWs c = true)
    (h1 : headIs (fun c => !jsWs c) n = true)
    (h2 : headIs (fun c => !jsWs c) n.reverse = true) :
    trimChars (a ++ n ++ b) = n := by
  unfold trimChars
  rw [List.append_assoc, dropWhile_append_of_all a (n ++ b) ha]
  have hnb : (n ++ b).dropWhile jsWs = n ++ b := by
    cases n with
    | nil => simp [headIs] at h1
    | cons c r =>
        have hc : jsWs c = false := by simpa [headIs] using h1
        simp [List.dropWhile_cons, hc]
  rw [hnb, List.reverse_append,
    dropWhile_append_of_all b.reverse n.reverse (fun c hc => hb c (List.mem_reverse.mp hc)),
    dropWhile_of_head_neg h2, List.reverse_reverse]

/-- The ends of a trimmed list are non-whitespace (unless it is empty). -/
theorem trimChars_ends (l : List Char) :
    trimChars l = [] ∨
      (headIs (fun c => !jsWs c) (trimChars l) = true ∧
        headIs (fun c => !jsWs c) (trimChars l).reverse = true) := by
  by_cases hnil : trimChars l = []
  · exact Or.inl hnil
  right
  have ht : trimChars l = (((l.dropWhile jsWs).reverse).dropWhile jsWs).reverse := rfl
  constructor
  · -- the head: `trimChars l` is a nonempty prefix of `l.dropWhile jsWs`,
    -- whose head is non-whitespace
    obtain ⟨pre, hp⟩ := List.dropWhile_suffix (l := (l.dropWhile jsWs).reverse) jsWs
    have hd : trimChars l ++ pre.reverse = l.dropWhile jsWs := by
      rw [ht]
      have := congrArg List.reverse hp
      simpa [List.reverse_append] using this
    rcases headIs_not_of_dropWhile jsWs l with hd0 | hd0
    · exfalso
      apply hnil
      rw [ht, hd0]
      rfl
    · cases hc : trimChars l with
      | nil => exact absurd hc hnil
      | cons c cs =>
          rw [hc] at hd
          rw [← hd] at hd0
          simpa [headIs] using hd0
  · -- the last element: the reverse of `trimChars l` is itself a `dropWhile`
    rw [ht, List.reverse_reverse]
    rcases headIs_not_of_dropWhile jsWs ((l.dropWhile jsWs).reverse) with h0 | h0
    · exfalso
      apply hnil
      rw [ht, h0]
      rfl
    · exact h0

/-- Trimming is idempotent. -/
theorem trimChars_trimChars (l : List Char) :
    trimChars (trimChars l) = trimChars l := by
  rcases trimChars_ends l with h | ⟨h1, h2⟩
  · rw [h]; rfl
  · have h := trimChars_sandwich [] (trimChars l) [] (by simp) (by simp) h1 h2
    rw [List.nil_append, List.append_nil] at h
    exact h

/-! ### Deduplication lemmas -/

/-- `dedupAux` yields a duplicate-free list avoiding the seen set. -/
theorem dedupAux_nodup (l : List String) :
    ∀ seen, (dedupAux l seen).Nodup ∧ ∀ x ∈ dedupAux l seen, x ∉ seen := by
  induction l with
  | nil => intro seen; exact ⟨List.nodup_nil, by simp [dedupAux]⟩
  | cons a l ih =>
      intro seen
      by_cases ha : a ∈ seen
      · simpa [dedupAux, ha] using ih seen
      · obtain ⟨hn, hs⟩ := ih (a :: seen)
        refine ⟨?_, ?_⟩
        · simp only [dedupAux, if_neg ha]
          refine List.Nodup.cons ?_ hn
          intro hmem
          exact hs a hmem (List.mem_cons_self a seen)
        · intro x hx
          simp only [dedupAux, if_neg ha, List.mem_cons] at hx
          rcases hx with rfl | hx
          · exact ha
          · intro hxs
            exact hs x hx (List.mem_cons_of_mem a hxs)

/-- Elements produced by `dedupAux` come from the input list. -/
theorem dedupAux_subset {l : List String} {seen : List String} {x : String}
    (h : x ∈ dedupAux l seen) : x ∈ l := by
  induction l generalizing seen with
  | nil => simp [dedupAux] at h
  | cons a l ih =>
      by_cases ha : a ∈ seen
      · simp only [dedupAux, if_pos ha] at h
        exact List.mem_cons_of_mem a (ih h)
      · simp only [dedupAux, if_neg ha, List.mem_cons] at h
        rcases h with rfl | h
        · exact List.mem_cons_self x l
        · exact List.mem_cons_of_mem a (ih h)

/-! ### The scanner on valid placeholder texts -/

/-- The scanner ignores brace-free text in the outside state. -/
theorem scan_append_no_lbrace (cs rest : List Char)
    (h : ∀ c ∈ cs, ¬ c = '{') :
    scanVarsAux (cs ++ rest) ScanSt.out = scanVarsAux rest ScanSt.out := by
  induction cs with
  | nil => rfl
  | cons c cs ih =>
      have hc : ¬ c = '{' := h c (List.mem_cons_self c cs)
      simp only [List.cons_append, scanVarsAux, if_neg hc]
      exact ih (fun d hd => h d (List.mem_cons_of_mem c hd))

/-- Inside a placeholder, the scanner accumulates the brace-free content and
emits it at the closing pair. -/
theorem scan_inner_to_close (cs : List Char) :
    ∀ (acc rest : List Char), (∀ c ∈ cs, ¬ c = '}') → ¬ (acc = [] ∧ cs = []) →
    scanVarsAux (cs ++ '}' :: '}' :: rest) (ScanSt.inner acc)
      = (acc.reverse ++ cs) :: scanVarsAux rest ScanSt.out := by
  induction cs with
  | nil =>
      intro acc rest _ hne
      have hacc : ¬ acc = [] := fun h => hne ⟨h, rfl⟩
      have hacc' : acc.isEmpty = false := by
        cases acc with
        | nil => exact absurd rfl hacc
        | cons a l => rfl
      simp [scanVarsAux, hacc']
  | cons c cs ih =>
      intro acc rest h hne
      have hc : ¬ c = '}' := h c (List.mem_cons_self c cs)
      have ih' := ih (c :: acc) rest (fun d hd => h d (List.mem_cons_of_mem c hd)) (by simp)
      simp only [List.cons_append, scanVarsAux, if_neg hc, List.append_eq, ih']
      simp

/-- A well-formed placeholder block is scanned as one match whose content is
the text between the braces. -/
theorem scan_ph_block (a n b rest : List Char)
    (ha : ∀ c ∈ a, jsWs c = true) (hb : ∀ c ∈ b, jsWs c = true)
    (hn : ∀ c ∈ n, ¬ c = '}') (hne : ¬ n = []) :
    scanVarsAux ('{' :: '{' :: (a ++ n ++ b ++ '}' :: '}' :: rest)) ScanSt.out
      = (a ++ n ++ b) :: scanVarsAux rest ScanSt.out := by
  have hcontent : ∀ c ∈ a ++ n ++ b, ¬ c = '}' := by
    intro c hc
    rcases List.mem_append.mp hc with hc' | hc'
    · rcases List.mem_append.mp hc' with hc'' | hc''
      · exact jsWs_ne_rbrace (ha c hc'')
      · exact hn c hc''
    · exact jsWs_ne_rbrace (hb c hc')
  have hcne : ¬ (([] : List Char) = [] ∧ a ++ n ++ b = []) := by
    rintro ⟨-, h⟩
    rcases List.append_eq_nil.mp h with ⟨h1, -⟩
    rcases List.append_eq_nil.mp h1 with ⟨-, h2⟩
    exact hne h2
  have := scan_inner_to_close (a ++ n ++ b) [] rest hcontent hcne
  simp only [scanVarsAux, if_pos rfl]
  rw [show a ++ n ++ b ++ '}' :: '}' :: rest = (a ++ n ++ b) ++ '}' :: '}' :: rest by
    simp [List.append_assoc]]
  simpa using this

/-- Extraction characterization on valid placeholder texts: the scanner
finds exactly the placeholder blocks and the trimmed contents are exactly
the names, in order. -/
theorem scan_valid_segs (segs : List Seg) (hv : validSegs segs = true) :
    (scanVarsAux (renderSegsL segs) ScanSt.out).map (fun l => String.mk (trimChars l))
      = phNamesList segs := by
  induction segs with
  | nil => rfl
  | cons s rest ih =>
      have hs : segOk s = true ∧ validSegs rest = true := by
        simpa [validSegs, List.all_cons] using hv
      have ihr := ih hs.2
      cases s with
      | lit str =>
          have hl' : ∀ x ∈ str.data, ¬ x = '{' ∧ ¬ x = '}' := by
            simpa [segOk, litOk] using hs.1
          have hl : ∀ c ∈ str.data, ¬ c = '{' := fun c hc => (hl' c hc).1
          simpa [renderSegsL, segChars, scan_append_no_lbrace str.data _ hl] using ihr
      | ph a n b =>
          have hok := hs.1
          simp only [segOk, nameOk, Bool.and_eq_true] at hok
          obtain ⟨⟨hwa, hwb⟩, ⟨hn1, hn2⟩, hsp⟩ := hok
          have ha : ∀ c ∈ a.data, jsWs c = true := by simpa using hwa
          have hb : ∀ c ∈ b.data, jsWs c = true := by simpa using hwb
          have hn3 : ∀ c ∈ n.data, ¬ c = '}' := by
            intro c hc hc'
            have hspec : ∀ x ∈ n.data, isRegexSpecial x = false := by simpa using hsp
            have := hspec c hc
            subst hc'
            exact absurd this (by decide)
          have hne : ¬ n.data = [] := by
            intro h
            rw [h] at hn1
            simp [headIs] at hn1
          have hblock := scan_ph_block a.data n.data b.data (renderSegsL rest) ha hb hn3 hne
          have hrender : renderSegsL (Seg.ph a n b :: rest)
              = '{' :: '{' :: (a.data ++ n.data ++ b.data ++ '}' :: '}' :: renderSegsL rest) := by
            simp [renderSegsL, segChars, List.append_assoc]
          rw [hrender, hblock]
          simp only [List.map_cons, ihr]
          rw [trimChars_sandwich a.data n.data b.data ha hb hn1 hn2]
          rfl

/-! ### The substitution scanner on valid placeholder texts -/

/-- A list is a prefix of itself followed by anything. -/
theorem isPrefixOf_append_self (k t : List Char) : k.isPrefixOf (k ++ t) = true := by
  induction k with
  | nil => simp [List.isPrefixOf]
  | cons c k ih => simp [List.isPrefixOf, ih]

/-- Unpack a successful `isPrefixOf`. -/
theorem isPrefixOf_exists {k l : List Char} (h : k.isPrefixOf l = true) :
    ∃ t, l = k ++ t := by
  induction k generalizing l with
  | nil => exact ⟨l, rfl⟩
  | cons c k ih =>
      cases l with
      | nil => simp [List.isPrefixOf] at h
      | cons d l' =>
          simp only [List.isPrefixOf, Bool.and_eq_true, beq_iff_eq] at h
          obtain ⟨rfl, h2⟩ := h
          obtain ⟨t, rfl⟩ := ih h2
          exact ⟨t, rfl⟩

/-- `matchAfterName` only shortens the list. -/
theorem matchAfterName_length {l r : List Char} (h : matchAfterName l = some r) :
    r.length ≤ l.length := by
  unfold matchAfterName at h
  split at h
  · rename_i rest heq
    injection h with h'
    subst h'
    have h1 : (l.dropWhile jsWs).length ≤ l.length := (List.dropWhile_suffix jsWs).length_le
    rw [heq] at h1
    simp at h1
    omega
  · exact absurd h (by simp)

/-- `tryNameAt` only shortens the list. -/
theorem tryNameAt_length {k l r : List Char} (h : tryNameAt k l = some r) :
    r.length ≤ l.length := by
  unfold tryNameAt at h
  split at h
  · have h1 := matchAfterName_length h
    have h2 : (l.drop k.length).length ≤ l.length := by
      rw [List.length_drop]
      omega
    omega
  · exact absurd h (by simp)

/-- `matchNameWs` only shortens the list. -/
theorem matchNameWs_length {k : List Char} :
    ∀ {l r : List Char}, matchNameWs k l = some r → r.length ≤ l.length := by
  intro l
  induction l with
  | nil => intro r h; exact tryNameAt_length h
  | cons c rest ih =>
      intro r h
      unfold matchNameWs at h
      split at h
      · split at h
        · rename_i r' heq
          injection h with h'
          subst h'
          have := ih heq
          simp only [List.length_cons]
          omega
        · exact tryNameAt_length h
      · exact tryNameAt_length h

/-- A successful placeholder match consumes at least the two opening braces. -/
theorem matchPh_length {k l r : List Char} (h : matchPh k l = some r) :
    r.length < l.length := by
  unfold matchPh at h
  split at h
  · rename_i c1 c2 rest
    split at h
    · have := matchNameWs_length h
      simp only [List.length_cons]
      omega
    · exact absurd h (by simp)
  · exact absurd h (by simp)

/-- Unfolding `goRepl` at a successful match. -/
theorem goRepl_succ_some {k v l rest : List Char} {fuel : Nat}
    (h : matchPh k l = some rest) :
    goRepl k v (fuel + 1) l = v ++ goRepl k v fuel rest := by
  simp only [goRepl, h]

/-- Unfolding `goRepl` at a failed match. -/
theorem goRepl_succ_none_cons {k v r : List Char} {c : Char} {fuel : Nat}
    (h : matchPh k (c :: r) = none) :
    goRepl k v (fuel + 1) (c :: r) = c :: goRepl k v fuel r := by
  simp only [goRepl, h]

/-- `goRepl` on the empty list. -/
theorem goRepl_nil {k v : List Char} {fuel : Nat} : goRepl k v fuel [] = [] := by
  cases fuel <;> rfl

/-- `goRepl` is independent of the fuel once the fuel covers the length. -/
theorem goRepl_fuel {k v : List Char} :
    ∀ (f1 f2 : Nat) (l : List Char), l.length ≤ f1 → l.length ≤ f2 →
      goRepl k v f1 l = goRepl k v f2 l := by
  intro f1
  induction f1 with
  | zero =>
      intro f2 l h1 _
      have : l = [] := List.eq_nil_of_length_eq_zero (Nat.le_zero.mp h1)
      subst this
      cases f2 with
      | zero => rfl
      | succ f2 => rfl
  | succ f1 ih =>
      intro f2 l h1 h2
      cases f2 with
      | zero =>
          have : l = [] := List.eq_nil_of_length_eq_zero (Nat.le_zero.mp h2)
          subst this
          rfl
      | succ f2 =>
          cases hm : matchPh k l with
          | some rest =>
              have hlt := matchPh_length hm
              rw [goRepl_succ_some hm, goRepl_succ_some hm,
                ih f2 rest (by omega) (by omega)]
          | none =>
              cases l with
              | nil => rw [goRepl_nil, goRepl_nil]
              | cons c r =>
                  simp only [List.length_cons] at h1 h2
                  rw [goRepl_succ_none_cons hm, goRepl_succ_none_cons hm,
                    ih f2 r (by omega) (by omega)]

/-- `matchPh` fails when the text does not open with two braces. -/
theorem matchPh_cons_none {k : List Char} {c : Char} {l : List Char} (hc : ¬ c = '{') :
    matchPh k (c :: l) = none := by
  cases l with
  | nil => rfl
  | cons c2 r =>
      show (if c = '{' ∧ c2 = '{' then matchNameWs k r else none) = none
      rw [if_neg]
      intro h
      exact hc h.1

/-- `matchPh` fails when the second character is not a brace. -/
theorem matchPh_cons2_none {k : List Char} {c c2 : Char} {l : List Char} (hc : ¬ c2 = '{') :
    matchPh k (c :: c2 :: l) = none := by
  show (if c = '{' ∧ c2 = '{' then matchNameWs k l else none) = none
  rw [if_neg]
  intro h
  exact hc h.2

/-- `goRepl` copies characters that cannot open a placeholder. -/
theorem goRepl_skip_chars {k v : List Char} :
    ∀ (cs : List Char) {x : List Char} {fuel : Nat}, (∀ c ∈ cs, ¬ c = '{') →
      (cs ++ x).length ≤ fuel →
      goRepl k v fuel (cs ++ x) = cs ++ goRepl k v x.length x := by
  intro cs
  induction cs with
  | nil =>
      intro x fuel _ hf
      simp only [List.nil_append] at hf ⊢
      exact goRepl_fuel fuel x.length x hf (Nat.le_refl _)
  | cons c cs ih =>
      intro x fuel h hf
      have hc : ¬ c = '{' := h c (List.mem_cons_self c cs)
      cases fuel with
      | zero => simp at hf
      | succ fuel =>
          simp only [List.cons_append]
          rw [goRepl_succ_none_cons (matchPh_cons_none hc),
            ih (fun d hd => h d (List.mem_cons_of_mem c hd)) (by
              simp only [List.cons_append, List.length_cons] at hf
              omega)]

/-- `headIs` only looks at the first list when it is nonempty. -/
theorem headIs_append_left {p : Char → Bool} {xs : List Char} (ys : List Char)
    (h : ¬ xs = []) : headIs p (xs ++ ys) = headIs p xs := by
  cases xs with
  | nil => exact absurd rfl h
  | cons c r => rfl

/-- `dropWhile` distributes over an append whose left part survives. -/
theorem dropWhile_append_of_ne {p : Char → Bool} (m x : List Char)
    (h : ¬ m.dropWhile p = []) :
    (m ++ x).dropWhile p = m.dropWhile p ++ x := by
  induction m with
  | nil => exact absurd rfl h
  | cons c m ih =>
      by_cases hc : p c = true
      · simp only [List.cons_append, List.dropWhile_cons, hc, if_pos] at h ⊢
        exact ih h
      · have hc' : p c = false := by revert hc; cases p c <;> simp
        simp [List.dropWhile_cons, hc']

/-- After the name, whitespace is skipped and the closing braces close the
match. -/
theorem matchAfterName_ws_close (b rest : List Char) (hb : ∀ c ∈ b, jsWs c = true) :
    matchAfterName (b ++ '}' :: '}' :: rest) = some rest := by
  unfold matchAfterName
  rw [dropWhile_append_of_all b _ hb]
  rfl

/-- A leftover nonempty name fragment (ending in non-whitespace, free of
closing braces) blocks the `\s*\}\}` tail. -/
theorem matchAfterName_fragment_none (m x : List Char)
    (hm : ∀ c ∈ m, ¬ c = '}')
    (hlast : headIs (fun c => !jsWs c) m.reverse = true) :
    matchAfterName (m ++ x) = none := by
  have hm_ne : ¬ m.dropWhile jsWs = [] := by
    intro h
    have hall : ∀ c ∈ m, jsWs c = true := by
      intro c hc
      exact List.dropWhile_eq_nil_iff.mp h c hc
    cases hmr : m.reverse with
    | nil => rw [hmr] at hlast; simp [headIs] at hlast
    | cons c rs =>
        have hc : c ∈ m := by
          have : c ∈ m.reverse := by rw [hmr]; exact List.mem_cons_self c rs
          exact List.mem_reverse.mp this
        rw [hmr] at hlast
        simp [headIs, hall c hc] at hlast
  unfold matchAfterName
  rw [dropWhile_append_of_ne m x hm_ne]
  cases hdw : m.dropWhile jsWs with
  | nil => exact absurd hdw hm_ne
  | cons e es =>
      have he : ¬ e = '}' := by
        obtain ⟨pre, hp⟩ := List.dropWhile_suffix (l := m) jsWs
        rw [hdw] at hp
        apply hm
        rw [← hp]
        exact List.mem_append_right pre (List.mem_cons_self e es)
      simp only [List.cons_append]
      split
      · rename_i r heq
        injection heq with h1 h2
        exact absurd h1 he
      · rfl

/-- A name cannot continue into the whitespace-and-closing-braces zone. -/
theorem name_not_into_ws_close (k : List Char) :
    ∀ (b x t : List Char), (∀ c ∈ k, ¬ c = '}') →
      headIs (fun c => !jsWs c) k.reverse = true →
      (∀ c ∈ b, jsWs c = true) → ¬ (b ++ '}' :: '}' :: x = k ++ t) := by
  induction k with
  | nil =>
      intro b x t _ hlast _ _
      simp [headIs] at hlast
  | cons e k' ih =>
      intro b x t hnb hlast hb heq
      cases b with
      | nil =>
          simp only [List.nil_append, List.cons_append] at heq
          injection heq with h1 h2
          exact hnb e (List.mem_cons_self e k') h1.symm
      | cons f b' =>
          simp only [List.cons_append] at heq
          injection heq with h1 h2
          have hfw : jsWs f = true := hb f (List.mem_cons_self f b')
          cases hk' : k' with
          | nil =>
              rw [hk'] at hlast
              simp only [List.reverse_cons, List.reverse_nil, List.nil_append] at hlast
              rw [← h1] at hlast
              simp [headIs, hfw] at hlast
          | cons g k'' =>
              refine ih b' x t (fun c hc => hnb c (List.mem_cons_of_mem e hc)) ?_
                (fun c hc => hb c (List.mem_cons_of_mem f hc)) h2
              rw [List.reverse_cons] at hlast
              rw [headIs_append_left [e] (by simp [hk'])] at hlast
              exact hlast

/-- `tryNameAt` fails at a block carrying a different name. -/
theorem tryNameAt_wrong_name (k : List Char) :
    ∀ (n b x : List Char), (∀ c ∈ k, ¬ c = '}') → (∀ c ∈ n, ¬ c = '}') →
      headIs (fun c => !jsWs c) k.reverse = true →
      headIs (fun c => !jsWs c) n.reverse = true →
      ¬ k = n → (∀ c ∈ b, jsWs c = true) →
      tryNameAt k (n ++ (b ++ '}' :: '}' :: x)) = none := by
  induction k with
  | nil =>
      intro n b x _ _ hk2 _ _ _
      simp [headIs] at hk2
  | cons c k' ih =>
      intro n b x hknb hnnb hk2 hn2 hne hb
      cases n with
      | nil => simp [headIs] at hn2
      | cons d n' =>
          unfold tryNameAt
          by_cases hpre : (c :: k').isPrefixOf ((d :: n') ++ (b ++ '}' :: '}' :: x)) = true
          · rw [if_pos hpre]
            have hpre' : c = d ∧ k'.isPrefixOf (n' ++ (b ++ '}' :: '}' :: x)) = true := by
              simpa [List.isPrefixOf] using hpre
            obtain ⟨hcd, hpre''⟩ := hpre'
            have hdrop : (((d :: n') ++ (b ++ '}' :: '}' :: x)).drop (c :: k').length)
                = (n' ++ (b ++ '}' :: '}' :: x)).drop k'.length := by
              simp [List.drop_succ_cons]
            rw [hdrop]
            cases hk' : k' with
            | nil =>
                -- `k = [c]`, so `n' ≠ []` (else `k = n`) and the fragment blocks
                have hn'ne : ¬ n' = [] := by
                  intro h
                  apply hne
                  rw [hk', h, hcd]
                simp only [List.length_nil, List.drop_zero]
                refine matchAfterName_fragment_none n' (b ++ '}' :: '}' :: x)
                  (fun e he => hnnb e (List.mem_cons_of_mem d he)) ?_
                rw [List.reverse_cons] at hn2
                rw [headIs_append_left [d] (by simp [hn'ne])] at hn2
                exact hn2
            | cons e k'' =>
                by_cases hn' : n' = []
                · -- the name runs into the closing zone: contradiction
                  subst hn'
                  obtain ⟨t, ht⟩ := isPrefixOf_exists hpre''
                  simp only [List.nil_append] at ht
                  exact absurd ht (name_not_into_ws_close k' b x t
                    (fun q hq => hknb q (List.mem_cons_of_mem c hq))
                    (by
                      rw [List.reverse_cons] at hk2
                      rw [headIs_append_left [c] (by simp [hk'])] at hk2
                      exact hk2)
                    hb)
                · -- recurse on the tails of the two names
                  rw [← hk']
                  have hrec := ih n' b x
                    (fun q hq => hknb q (List.mem_cons_of_mem c hq))
                    (fun q hq => hnnb q (List.mem_cons_of_mem d hq))
                    (by
                      rw [List.reverse_cons] at hk2
                      rw [headIs_append_left [c] (by simp [hk'])] at hk2
                      exact hk2)
                    (by
                      rw [List.reverse_cons] at hn2
                      rw [headIs_append_left [d] (by simp [hn'])] at hn2
                      exact hn2)
                    (by
                      intro h
                      apply hne
                      rw [h, hcd])
                    hb
                  unfold tryNameAt at hrec
                  rw [if_pos hpre''] at hrec
                  exact hrec
          · rw [if_neg hpre]

/-- `tryNameAt` fails when the name starts with non-whitespace but the text
starts with whitespace. -/
theorem tryNameAt_head_ws_none {k : List Char} {ca : Char} {t : List Char}
    (hk1 : headIs (fun c => !jsWs c) k = true) (hca : jsWs ca = true) :
    tryNameAt k (ca :: t) = none := by
  cases k with
  | nil => simp [headIs] at hk1
  | cons c k' =>
      have hcw : jsWs c = false := by simpa [headIs] using hk1
      unfold tryNameAt
      rw [if_neg]
      simp only [List.isPrefixOf, Bool.and_eq_true, beq_iff_eq]
      intro h
      rw [h.1] at hcw
      rw [hca] at hcw
      exact absurd hcw (by simp)

/-- `matchNameWs` succeeds at a block carrying exactly the spliced name. -/
theorem matchNameWs_at_name (k : List Char) (hk1 : headIs (fun c => !jsWs c) k = true) :
    ∀ (a : List Char) (b rest : List Char), (∀ c ∈ a, jsWs c = true) →
      (∀ c ∈ b, jsWs c = true) →
      matchNameWs k (a ++ (k ++ (b ++ '}' :: '}' :: rest))) = some rest := by
  intro a
  induction a with
  | nil =>
      intro b rest _ hb
      simp only [List.nil_append]
      cases hkc : k with
      | nil => rw [hkc] at hk1; simp [headIs] at hk1
      | cons c k' =>
          have hcw : jsWs c = false := by
            rw [hkc] at hk1
            simpa [headIs] using hk1
          rw [List.cons_append]
          simp only [matchNameWs, hcw, Bool.false_eq_true, if_false]
          rw [← List.cons_append]
          unfold tryNameAt
          rw [if_pos (isPrefixOf_append_self (c :: k') _), List.drop_left]
          exact matchAfterName_ws_close b rest hb
  | cons ca a' ih =>
      intro b rest ha hb
      have hca : jsWs ca = true := ha ca (List.mem_cons_self ca a')
      have ih' := ih b rest (fun d hd => ha d (List.mem_cons_of_mem ca hd)) hb
      simp only [List.cons_append, matchNameWs, hca, if_true, List.append_eq, ih']

/-- `matchNameWs` fails at a block carrying a different name. -/
theorem matchNameWs_wrong_name (k n : List Char)
    (hknb : ∀ c ∈ k, ¬ c = '}') (hnnb : ∀ c ∈ n, ¬ c = '}')
    (hk1 : headIs (fun c => !jsWs c) k = true)
    (hk2 : headIs (fun c => !jsWs c) k.reverse = true)
    (hn1 : headIs (fun c => !jsWs c) n = true)
    (hn2 : headIs (fun c => !jsWs c) n.reverse = true)
    (hne : ¬ k = n) :
    ∀ (a : List Char), (∀ c ∈ a, jsWs c = true) →
      ∀ (b x : List Char), (∀ c ∈ b, jsWs c = true) →
      matchNameWs k (a ++ (n ++ (b ++ '}' :: '}' :: x))) = none := by
  intro a
  induction a with
  | nil =>
      intro _ b x hb
      simp only [List.nil_append]
      cases hnc : n with
      | nil => rw [hnc] at hn1; simp [headIs] at hn1
      | cons d n' =>
          rw [hnc] at hnnb hn1 hn2 hne
          have hdw : jsWs d = false := by simpa [headIs] using hn1
          rw [List.cons_append]
          simp only [matchNameWs, hdw, Bool.false_eq_true, if_false, List.append_eq]
          rw [← List.cons_append]
          exact tryNameAt_wrong_name k (d :: n') b x hknb hnnb hk2 hn2 hne hb
  | cons ca a' ih =>
      intro ha b x hb
      have hca : jsWs ca = true := ha ca (List.mem_cons_self ca a')
      have ih' := ih (fun d hd => ha d (List.mem_cons_of_mem ca hd)) b x hb
      simp only [List.cons_append, matchNameWs, hca, if_true, List.append_eq, ih']
      exact tryNameAt_head_ws_none hk1 hca

/-- `matchPh` succeeds at a block carrying exactly the spliced name and
consumes exactly the block. -/
theorem matchPh_at_block (k a b rest : List Char)
    (hk1 : headIs (fun c => !jsWs c) k = true)
    (ha : ∀ c ∈ a, jsWs c = true) (hb : ∀ c ∈ b, jsWs c = true) :
    matchPh k ('{' :: '{' :: (a ++ (k ++ (b ++ '}' :: '}' :: rest)))) = some rest := by
  show (if '{' = '{' ∧ '{' = '{'
      then matchNameWs k (a ++ (k ++ (b ++ '}' :: '}' :: rest))) else none) = some rest
  rw [if_pos ⟨rfl, rfl⟩]
  exact matchNameWs_at_name k hk1 a b rest ha hb

/-- `matchPh` fails at a block carrying a different name. -/
theorem matchPh_at_wrong_block (k n a b x : List Char)
    (hknb : ∀ c ∈ k, ¬ c = '}') (hnnb : ∀ c ∈ n, ¬ c = '}')
    (hk1 : headIs (fun c => !jsWs c) k = true)
    (hk2 : headIs (fun c => !jsWs c) k.reverse = true)
    (hn1 : headIs (fun c => !jsWs c) n = true)
    (hn2 : headIs (fun c => !jsWs c) n.reverse = true)
    (hne : ¬ k = n)
    (ha : ∀ c ∈ a, jsWs c = true) (hb : ∀ c ∈ b, jsWs c = true) :
    matchPh k ('{' :: '{' :: (a ++ (n ++ (b ++ '}' :: '}' :: x)))) = none := by
  show (if '{' = '{' ∧ '{' = '{'
      then matchNameWs k (a ++ (n ++ (b ++ '}' :: '}' :: x))) else none) = none
  rw [if_pos ⟨rfl, rfl⟩]
  exact matchNameWs_wrong_name k n hknb hnnb hk1 hk2 hn1 hn2 hne a ha b x hb

/-- `matchPh` fails one character into a block (the second character of the
candidate is never an opening brace). -/
theorem matchPh_inner_none (k a n b Y : List Char)
    (ha : ∀ c ∈ a, jsWs c = true)
    (hn1 : headIs (fun c => !jsWs c) n = true)
    (hnlb : ∀ c ∈ n, ¬ c = '{') :
    matchPh k ('{' :: (a ++ (n ++ (b ++ '}' :: '}' :: Y)))) = none := by
  cases a with
  | nil =>
      cases n with
      | nil => simp [headIs] at hn1
      | cons cn n' =>
          simp only [List.nil_append, List.cons_append]
          exact matchPh_cons2_none (hnlb cn (List.mem_cons_self cn n'))
  | cons ca a' =>
      simp only [List.cons_append]
      exact matchPh_cons2_none (jsWs_ne_lbrace (ha ca (List.mem_cons_self ca a')))

/-- Unpack `nameOk`. -/
theorem nameOk_unpack {n : String} (h : nameOk n = true) :
    headIs (fun c => !jsWs c) n.data = true ∧
    headIs (fun c => !jsWs c) n.data.reverse = true ∧
    (∀ c ∈ n.data, ¬ c = '}') ∧ (∀ c ∈ n.data, ¬ c = '{') := by
  simp only [nameOk, Bool.and_eq_true] at h
  obtain ⟨⟨h1, h2⟩, h3⟩ := h
  have hspec : ∀ x ∈ n.data, isRegexSpecial x = false := by simpa using h3
  refine ⟨h1, h2, ?_, ?_⟩ <;> intro c hc hc'
  · have := hspec c hc
    subst hc'
    exact absurd this (by decide)
  · have := hspec c hc
    subst hc'
    exact absurd this (by decide)

/-- Equal character data means equal strings. -/
theorem string_data_eq {s t : String} (h : s.data = t.data) : s = t := by
  cases s
  cases t
  exact congrArg String.mk h

/-- `replaceSegs k v segs`: the effect of one global-replace pass for key `k`
with replacement `v` on a valid placeholder text, at the segment level —
placeholders named `k` become the literal `v`, everything else survives. -/
def replaceSegs (k v : String) : List Seg → List Seg
  | [] => []
  | Seg.lit s :: rest => Seg.lit s :: replaceSegs k v rest
  | Seg.ph a n b :: rest =>
      if n = k then Seg.lit v :: replaceSegs k v rest
      else Seg.ph a n b :: replaceSegs k v rest

/-- One global-replace pass (`goRepl`) on the rendering of a valid placeholder
text acts exactly as `replaceSegs`: placeholders carrying the spliced name are
replaced, everything else is copied verbatim. -/
theorem goRepl_render (k v : String) (hk : nameOk k = true) :
    ∀ (segs : List Seg), validSegs segs = true →
      ∀ (rest : List Char) (fuel : Nat), (renderSegsL segs ++ rest).length ≤ fuel →
      goRepl k.data v.data fuel (renderSegsL segs ++ rest)
        = renderSegsL (replaceSegs k v segs) ++ goRepl k.data v.data rest.length rest := by
  obtain ⟨hk1, hk2, hknb, hklb⟩ := nameOk_unpack hk
  intro segs
  induction segs with
  | nil =>
      intro _ rest fuel hf
      simp only [renderSegsL, List.nil_append, replaceSegs] at hf ⊢
      exact goRepl_fuel fuel rest.length rest hf (Nat.le_refl _)
  | cons s segs' ih =>
      intro hv' rest fuel hf
      have hs : segOk s = true ∧ validSegs segs' = true := by
        simpa [validSegs, List.all_cons] using hv'
      cases s with
      | lit str =>
          have hshape : renderSegsL (Seg.lit str :: segs') ++ rest
              = str.data ++ (renderSegsL segs' ++ rest) := by
            simp [renderSegsL, segChars, List.append_assoc]
          have hl' : ∀ x ∈ str.data, ¬ x = '{' ∧ ¬ x = '}' := by
            simpa [segOk, litOk] using hs.1
          rw [hshape, goRepl_skip_chars str.data (fun c hc => (hl' c hc).1)
            (by rw [← hshape]; exact hf)]
          rw [ih hs.2 rest (renderSegsL segs' ++ rest).length (Nat.le_refl _)]
          simp [replaceSegs, renderSegsL, segChars, List.append_assoc]
      | ph a n b =>
          have hok := hs.1
          simp only [segOk, Bool.and_eq_true] at hok
          obtain ⟨⟨hwa, hwb⟩, hn⟩ := hok
          have ha : ∀ c ∈ a.data, jsWs c = true := by simpa using hwa
          have hb : ∀ c ∈ b.data, jsWs c = true := by simpa using hwb
          obtain ⟨hn1, hn2, hnnb, hnlb⟩ := nameOk_unpack hn
          have hshape : renderSegsL (Seg.ph a n b :: segs') ++ rest
              = '{' :: '{' :: (a.data ++ (n.data ++ (b.data ++ '}' :: '}' ::
                  (renderSegsL segs' ++ rest)))) := by
            simp [renderSegsL, segChars, List.append_assoc]
          rw [hshape] at hf ⊢
          by_cases hnk : n = k
          · -- this placeholder carries the spliced key: the pattern matches
            subst hnk
            cases fuel with
            | zero => simp at hf
            | succ f =>
                rw [goRepl_succ_some (matchPh_at_block n.data a.data b.data
                  (renderSegsL segs' ++ rest) hn1 ha hb)]
                have hlen : (renderSegsL segs' ++ rest).length ≤ f := by
                  simp only [List.length_cons, List.length_append] at hf ⊢
                  omega
                rw [goRepl_fuel f (renderSegsL segs' ++ rest).length _ hlen (Nat.le_refl _)]
                rw [ih hs.2 rest (renderSegsL segs' ++ rest).length (Nat.le_refl _)]
                simp [replaceSegs, renderSegsL, segChars, List.append_assoc]
          · -- a different name: the pattern fails everywhere in this block
            have hkn : ¬ k.data = n.data := fun h => hnk (string_data_eq h.symm)
            cases fuel with
            | zero => simp at hf
            | succ f =>
                cases f with
                | zero =>
                    exfalso
                    simp only [List.length_cons, List.length_append] at hf
                    omega
                | succ f' =>
                    rw [goRepl_succ_none_cons (matchPh_at_wrong_block k.data n.data
                      a.data b.data (renderSegsL segs' ++ rest)
                      hknb hnnb hk1 hk2 hn1 hn2 hkn ha hb)]
                    rw [goRepl_succ_none_cons (matchPh_inner_none k.data a.data n.data
                      b.data (renderSegsL segs' ++ rest) ha hn1 hnlb)]
                    have hmid : a.data ++ (n.data ++ (b.data ++ '}' :: '}' ::
                        (renderSegsL segs' ++ rest)))
                        = (a.data ++ n.data ++ b.data ++ ['}', '}'])
                          ++ (renderSegsL segs' ++ rest) := by
                      simp [List.append_assoc]
                    rw [hmid]
                    have hnolb : ∀ c ∈ a.data ++ n.data ++ b.data ++ ['}', '}'],
                        ¬ c = '{' := by
                      intro c hc
                      simp only [List.mem_append, List.mem_cons,
                        List.not_mem_nil, or_false] at hc
                      rcases hc with ((hc | hc) | hc) | hc | hc
                      · exact jsWs_ne_lbrace (ha c hc)
                      · exact hnlb c hc
                      · exact jsWs_ne_lbrace (hb c hc)
                      · subst hc; decide
                      · subst hc; decide
                    rw [goRepl_skip_chars (a.data ++ n.data ++ b.data ++ ['}', '}'])
                      hnolb (by
                        simp only [List.length_cons, List.length_append] at hf ⊢
                        simp only [List.length_nil]
                        omega)]
                    rw [ih hs.2 rest (renderSegsL segs' ++ rest).length (Nat.le_refl _)]
                    simp [replaceSegs, if_neg hnk, renderSegsL, segChars,
                      List.append_assoc]

/-- The segment-level effect of the whole `replaceVariables` fold. -/
def segsFold (vm : List (String × JsValue)) (segs : List Seg) : List Seg :=
  vm.foldl (fun sg kv => replaceSegs kv.1 (jsOrEmptyStr kv.2) sg) segs

/-- A clean literal value stays a clean literal after the `|| ''`
normalization of `replaceVariables`. -/
theorem valOk_jsOrEmptyStr {v : JsValue} (h : valOk v = true) :
    litOk (jsOrEmptyStr v) = true := by
  cases v with
  | str s =>
      simp only [valOk, Bool.and_eq_true] at h
      obtain ⟨hne, hall⟩ := h
      have hfal : isFalsy (JsValue.str s) = false := by
        simpa [isFalsy] using hne
      simp only [jsOrEmptyStr, hfal, Bool.false_eq_true, if_false, jsToString, litOk]
      have hall' : ∀ c ∈ s.data, (¬ c = '{' ∧ ¬ c = '}') ∧ ¬ c = '$' := by
        simpa using hall
      simpa using fun c hc => (hall' c hc).1
  | num n => simp [valOk] at h
  | nan => simp [valOk] at h
  | boolean b => simp [valOk] at h
  | null => simp [valOk] at h
  | undef => simp [valOk] at h

/-- `replaceSegs` preserves validity when the value is a clean literal. -/
theorem replaceSegs_valid {k v : String} (hv : litOk v = true) :
    ∀ segs, validSegs segs = true → validSegs (replaceSegs k v segs) = true := by
  intro segs
  induction segs with
  | nil => intro h; exact h
  | cons s rest ih =>
      intro h
      have hs : segOk s = true ∧ validSegs rest = true := by
        simpa [validSegs, List.all_cons] using h
      cases s with
      | lit str =>
          have := ih hs.2
          simp only [replaceSegs, validSegs, List.all_cons, Bool.and_eq_true]
          exact ⟨hs.1, this⟩
      | ph a n b =>
          by_cases hnk : n = k
          · simp only [replaceSegs, if_pos hnk, validSegs, List.all_cons,
              Bool.and_eq_true]
            exact ⟨hv, ih hs.2⟩
          · simp only [replaceSegs, if_neg hnk, validSegs, List.all_cons,
              Bool.and_eq_true]
            exact ⟨hs.1, ih hs.2⟩

/-- The placeholder names surviving one `replaceSegs` pass. -/
theorem phNamesList_replaceSegs (k v : String) :
    ∀ segs, phNamesList (replaceSegs k v segs)
      = (phNamesList segs).filter (fun n => !(n == k)) := by
  intro segs
  induction segs with
  | nil => rfl
  | cons s rest ih =>
      cases s with
      | lit str => simpa [replaceSegs, phNamesList] using ih
      | ph a n b =>
          by_cases hnk : n = k
          · simp [replaceSegs, if_pos hnk, phNamesList, ih, hnk]
          · simp [replaceSegs, if_neg hnk, phNamesList, ih, hnk]

/-- Validity survives the whole fold. -/
theorem segsFold_valid (vm : List (String × JsValue)) :
    ∀ segs, validSegs segs = true → (∀ p ∈ vm, valOk p.2 = true) →
      validSegs (segsFold vm segs) = true := by
  induction vm with
  | nil => intro segs h _; exact h
  | cons kv vm' ih =>
      intro segs h hvm
      have hstep := replaceSegs_valid (k := kv.1)
        (valOk_jsOrEmptyStr (hvm kv (List.mem_cons_self kv vm'))) segs h
      exact ih _ hstep (fun p hp => hvm p (List.mem_cons_of_mem kv hp))

/-- `replaceVariables` on a valid placeholder text is `segsFold` at the
segment level. -/
theorem replaceVariables_render (vm : List (String × JsValue)) :
    ∀ segs, validSegs segs = true →
      (∀ p ∈ vm, nameOk p.1 = true ∧ valOk p.2 = true) →
      replaceVariables (renderSegs segs) vm = renderSegs (segsFold vm segs) := by
  induction vm with
  | nil => intro segs _ _; rfl
  | cons kv vm' ih =>
      intro segs hval hvm
      have hkv := hvm kv (List.mem_cons_self kv vm')
      have hrender := goRepl_render kv.1 (jsOrEmptyStr kv.2) hkv.1 segs hval []
        (renderSegsL segs ++ []).length (Nat.le_refl _)
      simp only [List.append_nil, List.length_nil, goRepl_nil] at hrender
      have hstep : String.mk (goRepl kv.1.data (jsOrEmptyStr kv.2).data
          (renderSegs segs).data.length (renderSegs segs).data)
          = renderSegs (replaceSegs kv.1 (jsOrEmptyStr kv.2) segs) := by
        have hdata : (renderSegs segs).data = renderSegsL segs := rfl
        rw [hdata, hrender]
        rfl
      have hunf : replaceVariables (renderSegs segs) (kv :: vm')
          = replaceVariables (renderSegs (replaceSegs kv.1 (jsOrEmptyStr kv.2) segs)) vm' := by
        unfold replaceVariables
        rw [List.foldl_cons, hstep]
      rw [hunf, ih _ (replaceSegs_valid (valOk_jsOrEmptyStr hkv.2) segs hval)
        (fun p hp => hvm p (List.mem_cons_of_mem kv hp))]
      rfl

/-- The placeholder names surviving the whole fold: exactly the names not
among the ValueMap keys. -/
theorem phNamesList_segsFold (vm : List (String × JsValue)) :
    ∀ segs, phNamesList (segsFold vm segs)
      = (phNamesList segs).filter (fun n => !((vm.map Prod.fst).contains n)) := by
  induction vm with
  | nil =>
      intro segs
      show phNamesList segs = _
      rw [List.filter_eq_self.mpr]
      intro n _
      simp
  | cons kv vm' ih =>
      intro segs
      show phNamesList (segsFold vm' (replaceSegs kv.1 (jsOrEmptyStr kv.2) segs)) = _
      rw [ih, phNamesList_replaceSegs, List.filter_filter]
      congr 1
      funext n
      simp [Bool.not_or, Bool.and_comm]

/-- A valid text without placeholders extracts nothing. -/
theorem extract_of_no_ph (segs : List Seg) (hval : validSegs segs = true)
    (h : phNamesList segs = []) : extractVarNames (renderSegs segs) = [] := by
  unfold extractVarNames dedupKeepFirst
  rw [show scanVarContents (renderSegs segs)
      = scanVarsAux (renderSegsL segs) ScanSt.out from rfl,
    scan_valid_segs segs hval, h]
  rfl

/-! ### Small helper lemmas -/

/-- A falsy ValueMap value substitutes as the empty string in text mode. -/
theorem jsOrEmptyStr_falsy {v : JsValue} (h : isFalsy v = true) : jsOrEmptyStr v = "" := by
  simp [jsOrEmptyStr, h]

/-! ### Claim theorems: cascade and error handling -/

/-- C2, counterexample.  The claim says the terminal failure of an exhausted
cascade aggregates exactly one recorded reason per strategy, in order.  In the
code the terminal error is strategy 4's error alone: two all-fail runs that
differ in every one of the first three strategies' reasons produce the very
same terminal error, so the per-strategy reasons cannot be listed in (and are
dropped from) the terminal error. -/
theorem cascade_no_aggregation_cex :
    convertPdfToWord (Except.error "libreoffice failed") (Except.error "pdf2docx failed")
        (Except.error "alternative parsing failed") (Except.error "text extraction failed")
      = Except.error "text extraction failed" ∧
    convertPdfToWord (Except.error "A") (Except.error "B") (Except.error "C")
        (Except.error "text extraction failed")
      = convertPdfToWord (Except.error "libreoffice failed") (Except.error "pdf2docx failed")
          (Except.error "alternative parsing failed") (Except.error "text extraction failed") :=
  ⟨rfl, rfl⟩

/-- C2, amended.  When every strategy of `convertPdfToWord` fails, the cascade
terminates with the fourth (fallback) strategy's error alone; the first three
strategies' failure reasons are only written to the console log and are not
aggregated into the terminal error. -/
theorem cascade_terminal_error_is_last (e1 e2 e3 e4 : String) :
    convertPdfToWord (Except.error e1) (Except.error e2) (Except.error e3) (Except.error e4)
      = Except.error e4 := rfl

/-- C3.  The cascade tries strategies strictly in declared order and
short-circuits on the first success: when strategy `i` succeeds, strategies
`i+1..n` are never invoked (the instrumented trace lists exactly the
strategies run) and the cascade's result is strategy `i`'s output path. -/
theorem cascade_short_circuit (r1 r2 r3 r4 : Except String String) (p : String) :
    (r1 = Except.ok p → convertPdfToWordTrace r1 r2 r3 r4 = (Except.ok p, [1])) ∧
    (∀ e1, r1 = Except.error e1 → r2 = Except.ok p →
      convertPdfToWordTrace r1 r2 r3 r4 = (Except.ok p, [1, 2])) ∧
    (∀ e1 e2, r1 = Except.error e1 → r2 = Except.error e2 → r3 = Except.ok p →
      convertPdfToWordTrace r1 r2 r3 r4 = (Except.ok p, [1, 2, 3])) := by
  refine ⟨fun h => ?_, fun e1 h1 h2 => ?_, fun e1 e2 h1 h2 h3 => ?_⟩
  · subst h; rfl
  · subst h1; subst h2; rfl
  · subst h1; subst h2; subst h3; rfl

/-- C3, witness: the spec's scenario — strategy 1 raises a timeout, strategy 2
produces an artifact; the result is strategy 2's artifact and strategies 3 and
4 are never invoked. -/
theorem cascade_short_circuit_witness :
    convertPdfToWordTrace (Except.error "timeout") (Except.ok "out.docx")
        (Except.error "e3") (Except.error "e4")
      = (Except.ok "out.docx", [1, 2]) :=
  (cascade_short_circuit (Except.error "timeout") (Except.ok "out.docx")
    (Except.error "e3") (Except.error "e4") "out.docx").2.1 "timeout" rfl rfl

/-- C9, counterexample.  The claim says a strategy that terminates without
error but leaves a zero-byte or missing artifact is treated as a
StrategyFailure, never as a success.  In the code, `convertWithLibreOffice`
only checks `fs.existsSync`, so an existing zero-byte artifact is moved into
place and returned as a success; and `convertWithPdf2Docx` returns the output
path without any artifact check at all, even when the artifact is missing. -/
theorem strategy_artifact_check_cex :
    convertWithLibreOffice ⟨none, some 0⟩ ⟨none, none⟩ ⟨none, none⟩ "out.docx"
      = Except.ok "out.docx" ∧
    convertWithPdf2Docx none none "out.docx" = Except.ok "out.docx" :=
  ⟨rfl, rfl⟩

/-- C9, amended.  `convertWithLibreOffice` treats a missing artifact as a
sub-variant failure (exhaustion of the three sub-variants throws the
aggregate LibreOffice error), but performs no size check: an existing
artifact of any size — including zero bytes — is returned as a success.
`convertWithPdf2Docx` performs no artifact check at all: whenever its
converter resolves, the output path is reported as a success regardless of
the artifact's existence or size. -/
theorem strategy_artifact_checks (outPath : String) (size : Nat) (a2 a3 : LibreAttempt) :
    convertWithLibreOffice ⟨none, some size⟩ a2 a3 outPath = Except.ok outPath ∧
    convertWithLibreOffice ⟨none, none⟩ ⟨none, none⟩ ⟨none, none⟩ outPath
      = Except.error "All LibreOffice conversion methods failed" ∧
    (∀ artifact : Option Nat, convertWithPdf2Docx none artifact outPath = Except.ok outPath) :=
  ⟨rfl, rfl, fun _ => rfl⟩

/-! ### Claim theorems: classifier and assembler -/

/-- C5.  Rule 1 of the structural classifier has highest precedence: every
trimmed line that equals its upper-case form and whose length lies strictly
between 3 and 100 is classified as a heading, regardless of any later rule it
may also satisfy. -/
theorem classifier_heading_first (line : String)
    (h1 : line = jsToUpperStr line) (h2 : 3 < line.length) (h3 : line.length < 100) :
    classifyLine line = LineKind.header := by
  have hne : ¬ line = "" := by
    intro h
    subst h
    exact absurd h2 (by decide)
  have hh : isHeader line = true := by
    simp [isHeader, ← h1, h2, h3]
  simp only [classifyLine, if_neg hne, hh, if_pos]

/-- C5, witness: the spec's scenario line `"REVENUE GROWTH"` (all caps, also
matching the sub-heading and emphasized rules' shape tests) is classified as
a heading. -/
theorem classifier_heading_first_witness :
    "REVENUE GROWTH" = jsToUpperStr "REVENUE GROWTH" ∧
    classifyLine "REVENUE GROWTH" = LineKind.header :=
  ⟨by decide, classifier_heading_first "REVENUE GROWTH" (by decide) (by decide) (by decide)⟩

/-- C6, counterexample.  The claim says a line containing a tab or a
two-or-more-space run that splits into fewer than 2 nonempty cells becomes a
monospace-styled paragraph.  In the code the table-row branch simply falls
through in that case, so the mapper produces `undefined` (no construct at
all), in both `createDocxFromText` and `createDocxFromTextAdvanced`: the line
`"ab  "` (a two-space run, one nonempty cell) yields no construct. -/
theorem assembler_degenerate_row_cex :
    createDocxFromTextLine "ab  " = none ∧ createDocxFromTextAdvancedLine "ab  " = none :=
  ⟨by decide, by decide⟩

/-- C6, amended.  For every line that does not start with `#` (and, for the
advanced variant, is not wrapped in `**`), contains a tab or a run of two
adjacent spaces, and splits into fewer than 2 nonempty cells, both document
assemblers produce no construct at all (`undefined` in the source, `none`
here) — not a monospace paragraph and not a table row. -/
theorem assembler_degenerate_row_absent (p : String)
    (hhash : headIs (fun c => c == '#') p.data = false)
    (hstars : (starts2Stars p.data && starts2Stars p.data.reverse) = false)
    (hsep : (contains2 ' ' ' ' p.data || p.data.contains '\t') = true)
    (hcells : (splitCellsFiltered p).length ≤ 1) :
    createDocxFromTextLine p = none ∧ createDocxFromTextAdvancedLine p = none := by
  have hlt : ¬ (1 < (splitCellsFiltered p).length) := Nat.not_lt.mpr hcells
  have h1 : ¬ (headIs (fun c => c == '#') p.data = true) := by simp [hhash]
  have h2 : ¬ ((starts2Stars p.data && starts2Stars p.data.reverse) = true) := by simp [hstars]
  constructor
  · unfold createDocxFromTextLine
    rw [if_neg h1, if_pos hsep, if_neg hlt]
  · unfold createDocxFromTextAdvancedLine
    rw [if_neg h1, if_neg h2, if_pos hsep, if_neg hlt]

/-- C6, amended, witness: the line `"x\t"` contains a tab, splits into the
single nonempty cell `"x"`, and both assemblers yield no construct for it. -/
theorem assembler_degenerate_row_absent_witness :
    (contains2 ' ' ' ' "x\t".data || "x\t".data.contains '\t') = true ∧
    (splitCellsFiltered "x\t").length ≤ 1 ∧
    createDocxFromTextLine "x\t" = none ∧ createDocxFromTextAdvancedLine "x\t" = none :=
  ⟨by decide, by decide,
    assembler_degenerate_row_absent "x\t" (by decide) (by decide) (by decide) (by decide)⟩

/-! ### Claim theorems: extraction error handling and value normalization -/

/-- Accumulation of the header/footer loop up to the first failing read. -/
theorem scanHeaderFooters_upto_failure (e : String) (post : List (Except String String)) :
    ∀ pre : List String,
      scanHeaderFooters (pre.map Except.ok ++ Except.error e :: post)
        = (pre.map scanRegionVars).flatten := by
  intro pre
  induction pre with
  | nil => rfl
  | cons p pre ih => simp [scanHeaderFooters, ih]

/-- C8, counterexample.  The claim says that when reading the header/footer
regions fails, the result equals the variable set extracted from the body
text alone.  Extraction is indeed non-fatal, but the failure can strike in
the middle of the `forEach` over the header/footer files: with body
`hi \x7b\x7bA\x7d\x7d`, a first header file containing `\x7b\x7bB\x7d\x7d`, and a second
file whose `asText` throws, the shared Set already holds `B` when the
exception reaches the `catch`, so the result is `["A", "B"]` — not the
body-only `["A"]`. -/
theorem extraction_partial_headerfooter_cex :
    extractTextAndVariables (Except.ok "hi \x7b\x7bA\x7d\x7d")
        (Except.ok [Except.ok "<w:p>\x7b\x7bB\x7d\x7d</w:p>",
          Except.error "corrupt header2.xml"])
      = Except.ok ⟨"hi \x7b\x7bA\x7d\x7d", ["A", "B"]⟩ ∧
    extractVarNames "hi \x7b\x7bA\x7d\x7d" = ["A"] ∧
    ¬ (["A", "B"] : List String) = ["A"] :=
  ⟨rfl, by decide, by decide⟩

/-- C8, amended.  Variable extraction never fails outright because a
header/footer region cannot be read: whenever body extraction succeeds,
extraction returns normally whatever the header/footer outcome, and its
result is the body variables plus those of the regions scanned before the
failure point — exactly the body-only set when opening/listing the zip fails
or when the very first region read fails, and the body set extended with the
already-scanned regions when a later read fails. -/
theorem extraction_headerfooter_degrades (t e : String) :
    (extractTextAndVariables (Except.ok t) (Except.error e)
        = Except.ok ⟨t, extractVarNames t⟩) ∧
    (∀ post : List (Except String String),
      extractTextAndVariables (Except.ok t) (Except.ok (Except.error e :: post))
        = Except.ok ⟨t, extractVarNames t⟩) ∧
    (∀ (pre : List String) (post : List (Except String String)),
      extractTextAndVariables (Except.ok t)
          (Except.ok (pre.map Except.ok ++ Except.error e :: post))
        = Except.ok ⟨t, dedupKeepFirst (varOccurrences t
            ++ (pre.map scanRegionVars).flatten)⟩) ∧
    (∀ headerFooters, (extractTextAndVariables (Except.ok t) headerFooters).isOk = true) := by
  refine ⟨rfl, fun post => ?_, fun pre post => ?_, fun hf => ?_⟩
  · simp only [extractTextAndVariables]
    rw [show scanHeaderFooters (Except.error e :: post) = [] from rfl, List.append_nil]
    rfl
  · simp only [extractTextAndVariables]
    rw [scanHeaderFooters_upto_failure e post pre]
  · cases hf <;> rfl

/-- C1, counterexample.  The claim says a placeholder whose name is not a key
of the ValueMap substitutes to the empty string, yielding
`Dear Alice, meeting at .` in the spec's scenario.  In the code
`replaceVariables` iterates only over the keys of the map, so the unmapped
`Location` placeholder is left in place verbatim. -/
theorem substitution_missing_key_cex :
    replaceVariables "Dear \x7b\x7bName\x7d\x7d, meeting at \x7b\x7bLocation\x7d\x7d."
        [("Name", JsValue.str "Alice")]
      = "Dear Alice, meeting at \x7b\x7bLocation\x7d\x7d." ∧
    ¬ replaceVariables "Dear \x7b\x7bName\x7d\x7d, meeting at \x7b\x7bLocation\x7d\x7d."
        [("Name", JsValue.str "Alice")]
      = "Dear Alice, meeting at ." :=
  ⟨by decide, by decide⟩

/-- C1, amended.  Text-mode substitution replaces only the placeholders whose
names are keys of the ValueMap; a placeholder whose name is not a key is left
in place unchanged, so re-extracting from the substituted text yields exactly
the names that were not keys.  (Stated on valid placeholder texts —
interleavings of brace-free literals and well-formed placeholders — with
keys that the substitution regex matches literally and clean literal
values.) -/
theorem substitution_unmapped_left_in_place (segs : List Seg)
    (vm : List (String × JsValue)) (hval : validSegs segs = true)
    (hvm : ∀ p ∈ vm, nameOk p.1 = true ∧ valOk p.2 = true) :
    extractVarNames (replaceVariables (renderSegs segs) vm)
      = dedupKeepFirst ((phNamesList segs).filter
          (fun n => !((vm.map Prod.fst).contains n))) := by
  rw [replaceVariables_render vm segs hval hvm]
  have hval2 : validSegs (segsFold vm segs) = true :=
    segsFold_valid vm segs hval (fun p hp => (hvm p hp).2)
  unfold extractVarNames dedupKeepFirst
  rw [show scanVarContents (renderSegs (segsFold vm segs))
      = scanVarsAux (renderSegsL (segsFold vm segs)) ScanSt.out from rfl,
    scan_valid_segs _ hval2, phNamesList_segsFold]

/-- C1, amended, witness: the scenario text with only `Name` mapped keeps the
`Location` placeholder, and re-extraction still reports it. -/
theorem substitution_unmapped_left_in_place_witness :
    validSegs [Seg.lit "Dear ", Seg.ph "" "Name" "", Seg.lit ", meeting at ",
        Seg.ph "" "Location" "", Seg.lit "."] = true ∧
    renderSegs [Seg.lit "Dear ", Seg.ph "" "Name" "", Seg.lit ", meeting at ",
        Seg.ph "" "Location" "", Seg.lit "."]
      = "Dear \x7b\x7bName\x7d\x7d, meeting at \x7b\x7bLocation\x7d\x7d." ∧
    extractVarNames (replaceVariables (renderSegs [Seg.lit "Dear ",
        Seg.ph "" "Name" "", Seg.lit ", meeting at ", Seg.ph "" "Location" "",
        Seg.lit "."]) [("Name", JsValue.str "Alice")]) = ["Location"] :=
  ⟨by decide, by decide,
    (substitution_unmapped_left_in_place
      [Seg.lit "Dear ", Seg.ph "" "Name" "", Seg.lit ", meeting at ",
        Seg.ph "" "Location" "", Seg.lit "."]
      [("Name", JsValue.str "Alice")] (by decide) (by decide)).trans (by decide)⟩

/-- C4, counterexample.  The round-trip fails as stated: the text
`\x7b\x7ba\x7d\x7d \x7b\x7bX\x7b\x7ba\x7d\x7d Y\x7d\x7d` extracts the names `a` and `X\x7b\x7ba`; mapping both
to literal non-empty values (`p`, `q`) and substituting leaves
`p \x7b\x7bXp Y\x7d\x7d` — the global replacement of `a` rewrites the interior of the
second placeholder, the pattern for `X\x7b\x7ba` then no longer matches, and
re-extraction yields the fresh name `Xp Y`, not the empty set. -/
theorem roundtrip_substitution_cex :
    extractVarNames "\x7b\x7ba\x7d\x7d \x7b\x7bX\x7b\x7ba\x7d\x7d Y\x7d\x7d"
      = ["a", "X\x7b\x7ba"] ∧
    replaceVariables "\x7b\x7ba\x7d\x7d \x7b\x7bX\x7b\x7ba\x7d\x7d Y\x7d\x7d"
        [("a", JsValue.str "p"), ("X\x7b\x7ba", JsValue.str "q")]
      = "p \x7b\x7bXp Y\x7d\x7d" ∧
    extractVarNames (replaceVariables "\x7b\x7ba\x7d\x7d \x7b\x7bX\x7b\x7ba\x7d\x7d Y\x7d\x7d"
        [("a", JsValue.str "p"), ("X\x7b\x7ba", JsValue.str "q")])
      = ["Xp Y"] ∧
    ¬ extractVarNames (replaceVariables "\x7b\x7ba\x7d\x7d \x7b\x7bX\x7b\x7ba\x7d\x7d Y\x7d\x7d"
        [("a", JsValue.str "p"), ("X\x7b\x7ba", JsValue.str "q")])
      = [] :=
  ⟨by decide, by decide, by decide, by decide⟩

/-- C4, amended.  The round-trip holds on valid placeholder texts:
interleavings of brace-free literal segments and well-formed placeholders
whose trimmed names contain no brace or regex-special characters.  When the
ValueMap maps every extracted name (all keys being such names) to a literal
non-empty value free of braces and `$`, substituting and then re-extracting
yields the empty set. -/
theorem roundtrip_substitution_extraction (segs : List Seg)
    (vm : List (String × JsValue)) (hval : validSegs segs = true)
    (hvm : ∀ p ∈ vm, nameOk p.1 = true ∧ valOk p.2 = true)
    (hcov : ∀ n ∈ phNamesList segs, (vm.map Prod.fst).contains n = true) :
    extractVarNames (replaceVariables (renderSegs segs) vm) = [] := by
  rw [replaceVariables_render vm segs hval hvm]
  apply extract_of_no_ph _ (segsFold_valid vm segs hval (fun p hp => (hvm p hp).2))
  rw [phNamesList_segsFold]
  apply List.filter_eq_nil_iff.mpr
  intro n hn
  simp only [hcov n hn, Bool.not_true, Bool.false_eq_true, not_false_eq_true]

/-- C4, amended, witness: the scenario text with both names mapped to
literal non-empty values round-trips to the empty extraction. -/
theorem roundtrip_substitution_extraction_witness :
    validSegs [Seg.lit "Dear ", Seg.ph "" "Name" "", Seg.lit ", meeting at ",
        Seg.ph "" "Location" "", Seg.lit "."] = true ∧
    extractVarNames (replaceVariables (renderSegs [Seg.lit "Dear ",
        Seg.ph "" "Name" "", Seg.lit ", meeting at ", Seg.ph "" "Location" "",
        Seg.lit "."])
      [("Name", JsValue.str "Alice"), ("Location", JsValue.str "HQ")]) = [] :=
  ⟨by decide,
    roundtrip_substitution_extraction
      [Seg.lit "Dear ", Seg.ph "" "Name" "", Seg.lit ", meeting at ",
        Seg.ph "" "Location" "", Seg.lit "."]
      [("Name", JsValue.str "Alice"), ("Location", JsValue.str "HQ")]
      (by decide) (by decide) (by decide)⟩

/-- C7.  Extracted variable names are always trimmed and duplicate-free, and
on valid placeholder texts the extracted set is exactly the list of
placeholder names in order of first appearance — in particular it is
invariant to the amount and placement of whitespace between the delimiter
markers and the name, which only enters through the `pre`/`post` whitespace
fields that the result does not mention. -/
theorem extraction_trimmed_unique_ws_invariant :
    (∀ s : String, (extractVarNames s).Nodup) ∧
    (∀ (s : String) (n : String), n ∈ extractVarNames s → trimStr n = n) ∧
    (∀ segs : List Seg, validSegs segs = true →
      extractVarNames (renderSegs segs) = dedupKeepFirst (phNamesList segs)) := by
  refine ⟨fun s => (dedupAux_nodup _ []).1, fun s n hn => ?_, fun segs hv => ?_⟩
  · have hmem : n ∈ (scanVarContents s).map (fun l => String.mk (trimChars l)) :=
      dedupAux_subset hn
    obtain ⟨c, -, hc⟩ := List.mem_map.mp hmem
    have : trimStr n = String.mk (trimChars (trimChars c)) := by rw [← hc]; rfl
    rw [this, trimChars_trimChars, hc]
  · unfold extractVarNames dedupKeepFirst
    have hdata : (renderSegs segs).data = renderSegsL segs := rfl
    rw [show scanVarContents (renderSegs segs)
        = scanVarsAux (renderSegsL segs) ScanSt.out from rfl]
    rw [scan_valid_segs segs hv]

/-- C7, witness: the texts `\x7b\x7b X \x7d\x7d` and `\x7b\x7bX\x7d\x7d` (different
interior whitespace, same name) both extract exactly `["X"]`. -/
theorem extraction_trimmed_unique_ws_invariant_witness :
    validSegs [Seg.ph " " "X" " "] = true ∧
    extractVarNames (renderSegs [Seg.ph " " "X" " "]) = ["X"] ∧
    extractVarNames (renderSegs [Seg.ph "" "X" ""]) = ["X"] ∧
    renderSegs [Seg.ph " " "X" " "] = "\x7b\x7b X \x7d\x7d" ∧
    renderSegs [Seg.ph "" "X" ""] = "\x7b\x7bX\x7d\x7d" :=
  ⟨by decide,
    (extraction_trimmed_unique_ws_invariant.2.2 [Seg.ph " " "X" " "] (by decide)).trans
      (by decide),
    (extraction_trimmed_unique_ws_invariant.2.2 [Seg.ph "" "X" ""] (by decide)).trans
      (by decide),
    by decide, by decide⟩

/-- C10.  In text-mode substitution every key whose value is falsy (empty
string, `0`, `false`, `NaN`, `null`, `undefined`) substitutes exactly like
the empty string, because the per-key replacement string is
`variables[key] || ''`; in template-rendering mode the `safeVariables`
normalization rewrites only `null`/`undefined` to the empty string and passes
every other value through unchanged. -/
theorem falsy_value_normalization :
    (∀ (t k : String) (v : JsValue) (vm1 vm2 : List (String × JsValue)), isFalsy v = true →
      replaceVariables t (vm1 ++ (k, v) :: vm2)
        = replaceVariables t (vm1 ++ (k, JsValue.str "") :: vm2)) ∧
    (∀ (k : String) (v : JsValue), (v = JsValue.null ∨ v = JsValue.undef) →
      safeTemplateVariables [(k, v)] = [(k, JsValue.str "")]) ∧
    (∀ (k : String) (v : JsValue), ¬ (v = JsValue.null ∨ v = JsValue.undef) →
      safeTemplateVariables [(k, v)] = [(k, v)]) := by
  refine ⟨fun t k v vm1 vm2 hf => ?_, fun k v h => ?_, fun k v h => ?_⟩
  · have hv : jsOrEmptyStr v = jsOrEmptyStr (JsValue.str "") := by
      rw [jsOrEmptyStr_falsy hf]; rfl
    simp only [replaceVariables, List.foldl_append, List.foldl_cons, hv]
  · simp [safeTemplateVariables, h]
  · simp [safeTemplateVariables, if_neg h]

/-- C10, witness: the key `k` mapped to the number `0` substitutes like the
empty string in text mode (`x\x7b\x7bk\x7d\x7dy` becomes `xy`), while the template
normalization leaves the value `0` untouched. -/
theorem falsy_value_normalization_witness :
    isFalsy (JsValue.num 0) = true ∧
    replaceVariables "x\x7b\x7bk\x7d\x7dy" [("k", JsValue.num 0)]
      = replaceVariables "x\x7b\x7bk\x7d\x7dy" [("k", JsValue.str "")] ∧
    replaceVariables "x\x7b\x7bk\x7d\x7dy" [("k", JsValue.num 0)] = "xy" ∧
    safeTemplateVariables [("k", JsValue.num 0)] = [("k", JsValue.num 0)] :=
  ⟨by decide,
    falsy_value_normalization.1 "x\x7b\x7bk\x7d\x7dy" "k" (JsValue.num 0) [] [] (by decide),
    by decide,
    falsy_value_normalization.2.2 "k" (JsValue.num 0) (by decide)⟩

end Noven
